import Mathlib

/-!
Verification development for the turborepo-projects-version action:
a shallow embedding of `src/turbo.ts` (tool version resolution, cache
warm-up, workspace scanning), `src/package.ts` (manifest reading and
identifier normalization) and `src/index.ts` (the grouping pipeline),
together with proofs of the specified properties.
-/

set_option maxHeartbeats 1000000

namespace TPV

/-! ### Identifier normalization (src/package.ts, getPackageInfo)

The source derives the identifier by
`name.replace(/\W+/g, '-').toLowerCase().replace(/^-+|-+$/g, '')`.
JavaScript `\w` is exactly `[A-Za-z0-9_]`, so `\W+` matches a maximal
run of characters outside that set.  We model strings as `List Char`.
-/

/-- JavaScript word character: `[A-Za-z0-9_]` (the complement of `\W`). -/
def isWordChar (c : Char) : Bool :=
  (65 ≤ c.toNat && c.toNat ≤ 90) || (97 ≤ c.toNat && c.toNat ≤ 122) ||
    (48 ≤ c.toNat && c.toNat ≤ 57) || c == '_'

/-- `String.prototype.toLowerCase`, restricted to the characters that can
occur after the `\W+` replacement (ASCII word characters and `-`), on which
it is exactly ASCII lowercasing. -/
def jsToLower (c : Char) : Char :=
  if 65 ≤ c.toNat && c.toNat ≤ 90 then Char.ofNat (c.toNat + 32) else c

/-- `replace(/\W+/g, '-')`: each maximal run of non-word characters becomes a
single `'-'`.  The flag records whether we are inside a non-word run whose
replacement dash has already been emitted. -/
def collapseGo : Bool → List Char → List Char
  | _, [] => []
  | inRun, c :: rest =>
    if isWordChar c then c :: collapseGo false rest
    else if inRun then collapseGo true rest
    else '-' :: collapseGo true rest

/-- `replace(/^-+|-+$/g, '')`: strip leading and trailing dashes. -/
def stripDashes (l : List Char) : List Char :=
  ((l.dropWhile (fun c => c == '-')).reverse.dropWhile (fun c => c == '-')).reverse

/-- The identifier derivation from `getPackageInfo`:
`replace(/\W+/g, '-')`, then `toLowerCase()`, then `replace(/^-+|-+$/g, '')`. -/
def normalize (s : String) : String :=
  ⟨stripDashes ((collapseGo false s.data).map jsToLower)⟩

/-- A character the normalizer leaves unchanged everywhere: a non-uppercase
word character or a dash.  Every character of a normalized string is good. -/
def goodChar (c : Char) : Bool :=
  (isWordChar c && !(65 ≤ c.toNat && c.toNat ≤ 90)) || c == '-'

/-! ### Data model -/

/-- The `build` field of a package manifest: `string | string[]`. -/
inductive BuildField : Type where
  | str (s : String)
  | arr (labels : List String)
deriving DecidableEq

/-- The fields of a per-package `package.json` consumed by the program. -/
structure Manifest : Type where
  name : Option String
  version : Option String
  build : Option BuildField
deriving DecidableEq

/-- The result of attempting to read and parse a JSON file at some path. -/
inductive FileRead (α : Type) : Type where
  | absent : FileRead α
  | malformed : FileRead α
  | parsed (val : α) : FileRead α
deriving DecidableEq

/-- The fields of the repository-root `package.json` consumed by
`getTurboVersion`: the `turbo` entries of `devDependencies` and
`dependencies`. -/
structure RootManifest : Type where
  devDependenciesTurbo : Option String
  dependenciesTurbo : Option String
deriving DecidableEq

/-- One entry of `packages.items` in the turbo `ls --output=json` result. -/
structure WorkspacePackage : Type where
  name : String
  path : String
deriving DecidableEq

/-- The `packages` field of the turbo query result. -/
structure TurboPackagesField : Type where
  count : Nat
  items : List WorkspacePackage
deriving DecidableEq

/-- The shape of the JSON document printed by `turbo ls --output=json`. -/
structure TurboQueryResult : Type where
  packageManager : String
  packages : TurboPackagesField
deriving DecidableEq

/-- The result of `getExecOutput`: exit code plus captured streams. -/
structure ExecOutput : Type where
  exitCode : Int
  stdout : String
  stderr : String
deriving DecidableEq

/-- `ProjectInfo` from src/package.ts. -/
structure ProjectInfo : Type where
  path : String
  name : Option String
  version : Option String
  identifier : Option String
  build : Option BuildField
deriving DecidableEq

/-- The environment of one pipeline run: the filesystem contents and the
outcome of each external collaborator call (`@actions/cache`,
`@actions/exec`, `JSON.parse`).  An `Except.error` outcome models the
collaborator throwing. -/
structure Env : Type where
  /-- The repository-root `package.json`. -/
  rootManifest : FileRead RootManifest
  /-- Outcome of `cache.restoreCache` (`.ok hit` or a thrown error). -/
  restoreOutcome : Except String Bool
  /-- Outcome of `getExecOutput npx turbo@v --version` (the pre-download). -/
  downloadOutcome : Except String ExecOutput
  /-- Outcome of `cache.saveCache`. -/
  saveOutcome : Except String Unit
  /-- Outcome of `getExecOutput npx turbo@v ls --output=json`. -/
  lsOutcome : Except String ExecOutput
  /-- `JSON.parse` oracle for the extracted JSON substring: `none` models a
  parse failure or a document without the expected `packages.items` shape. -/
  parseTurbo : String → Option TurboQueryResult
  /-- Per-package `package.json` contents, indexed by the package path. -/
  fs : String → FileRead Manifest

/-! ### src/turbo.ts -/

/-- JavaScript `a || b` on `string | undefined` values: the empty string is
falsy, so it falls through to the right operand. -/
def jsOr (a b : Option String) : Option String :=
  match a with
  | some s => if s = "" then b else some s
  | none => b

/-- `getTurboVersion` from src/turbo.ts: `undefined` when `package.json`
is missing, the `devDependencies.turbo || dependencies.turbo` value when it
parses, and a thrown error when it exists but cannot be read or parsed. -/
def getTurboVersion (root : FileRead RootManifest) : Except String (Option String) :=
  match root with
  | .absent => .ok none
  | .malformed => .error "Failed to fetch package.json in repo root folder"
  | .parsed pj => .ok (jsOr pj.devDependenciesTurbo pj.dependenciesTurbo)

/-- `ensureTurboCache` from src/turbo.ts.  Every collaborator call sits in a
`try { … } catch { core.warning(…) }`, so each failure degrades to a warning
line; the returned list is the log output.  The function returns early when
the cache restore reports a hit; otherwise it pre-downloads turbo and, on
exit code zero, saves the cache. -/
def ensureTurboCache (env : Env) (turboVersion : String) : Except String (List String) :=
  let look := "🔍 Looking for cached turbo@" ++ turboVersion ++ " in npx cache..."
  let restoreLogs : List String :=
    match env.restoreOutcome with
    | .ok _ => [look]
    | .error e => [look, "Cache restore failed: " ++ e]
  match env.restoreOutcome with
  | .ok true => .ok (restoreLogs ++ ["✅ Restored npx cache for turbo@" ++ turboVersion])
  | _ =>
    let miss := restoreLogs ++
      ["📥 No cache found, turbo@" ++ turboVersion ++ " will be downloaded on first use",
       "⬇️ Pre-downloading turbo@" ++ turboVersion ++ " to populate cache..."]
    match env.downloadOutcome with
    | .error e => .ok (miss ++ ["Failed to pre-download turbo: " ++ e])
    | .ok out =>
      if out.exitCode = 0 then
        let dl := miss ++ ["✅ turbo@" ++ turboVersion ++ " downloaded successfully"]
        match env.saveOutcome with
        | .ok _ => .ok (dl ++ ["💾 Cached npx turbo@" ++ turboVersion ++ " for future runs"])
        | .error e => .ok (dl ++ ["Failed to save cache: " ++ e])
      else .ok miss

/-- The regex match `stdout.match(/\{[\s\S]*\}/)`: greedily from the first
`{` to the last `}`, `none` when no such substring exists. -/
def extractJson (l : List Char) : Option (List Char) :=
  let fromBrace := l.dropWhile (fun c => c ≠ '\x7b')
  match fromBrace with
  | [] => none
  | _ =>
    match (fromBrace.reverse.dropWhile (fun c => c ≠ '\x7d')).reverse with
    | [] => none
    | js => some js

/-- `getTurboPackages` from src/turbo.ts.  The version resolution and the
falsy-version check happen before the `try` block; everything from the `ls`
subprocess call onwards is inside `try { … } catch { throw new
Error('Failed to retrieve turbo packages') }`. -/
def getTurboPackages (env : Env) : Except String (List WorkspacePackage) :=
  match getTurboVersion env.rootManifest with
  | .error e => .error e
  | .ok v =>
    match v with
    | none => .error "Repo does not have Turborepo installed"
    | some turboVersion =>
      if turboVersion = "" then .error "Repo does not have Turborepo installed"
      else
        match ensureTurboCache env turboVersion with
        | .error e => .error e
        | .ok _ =>
          let inner : Except String (List WorkspacePackage) :=
            match env.lsOutcome with
            | .error e => .error e
            | .ok output =>
              if output.exitCode ≠ 0 then
                .error ("Failed to get turbo packages: " ++ output.stderr)
              else
                match extractJson output.stdout.data with
                | none => .error "Turbo output is not valid JSON"
                | some js =>
                  match env.parseTurbo (String.mk js) with
                  | none => .error "JSON.parse threw"
                  | some result => .ok result.packages.items
          match inner with
          | .ok items => .ok items
          | .error _ => .error "Failed to retrieve turbo packages"

/-! ### src/package.ts -/

/-- The `ProjectInfo` value built by `getPackageInfo` on a successful parse. -/
def packageInfoOf (packagePath : String) (pj : Manifest) : ProjectInfo :=
  { path := packagePath
    name := pj.name
    version := pj.version
    identifier := pj.name.map normalize
    build := pj.build }

/-- `getPackageInfo` from src/package.ts: `undefined` when
`<path>/package.json` is missing, a thrown error when it cannot be parsed,
and the extracted `ProjectInfo` otherwise. -/
def getPackageInfo (fs : String → FileRead Manifest) (packagePath : String) :
    Except String (Option ProjectInfo) :=
  match fs packagePath with
  | .absent => .ok none
  | .malformed =>
    .error ("Failed to retrieve package info: " ++ packagePath ++ "/package.json")
  | .parsed pj => .ok (some (packageInfoOf packagePath pj))

/-! ### src/index.ts (embedded in README.md): the grouping pipeline -/

/-- `TurboProjects`: the result object, modelled as an insertion-ordered
association list from build label to project group. -/
abbrev TurboProjects := List (String × List ProjectInfo)

/-- `if (!result[build]) result[build] = []; result[build].push(info)`:
append to the group of key `k`, creating it at the end on first use. -/
def addTo (m : TurboProjects) (k : String) (p : ProjectInfo) : TurboProjects :=
  match m with
  | [] => [(k, [p])]
  | (k', g) :: rest => if k' = k then (k', g ++ [p]) :: rest else (k', g) :: addTo rest k p

/-- JavaScript truthiness of a `build` field value: the empty string is
falsy, every array (even an empty one) is truthy. -/
def buildTruthy : BuildField → Bool
  | .str s => s ≠ ""
  | .arr _ => true

/-- The body of the `for (const pkg of packages)` loop for one `ProjectInfo`:
skip when `build` is absent or falsy, fan out over the array elements when it
is an array, use the single string as the one label otherwise. -/
def processInfo (m : TurboProjects) (p : ProjectInfo) : TurboProjects :=
  match p.build with
  | none => m
  | some b =>
    if buildTruthy b then
      match b with
      | .arr labels => labels.foldl (fun acc l => addTo acc l p) m
      | .str s => addTo m s p
    else m

/-- The `for` loop of `getProjects`: read each package's manifest in order,
skip missing manifests, propagate read failures, and accumulate the groups. -/
def processPackages (fs : String → FileRead Manifest) :
    List WorkspacePackage → TurboProjects → Except String TurboProjects
  | [], acc => .ok acc
  | pkg :: rest, acc =>
    match getPackageInfo fs pkg.path with
    | .error e => .error e
    | .ok none => processPackages fs rest acc
    | .ok (some info) => processPackages fs rest (processInfo acc info)

/-- `getProjects` from src/index.ts: scan the workspace, group the buildable
projects, and wrap any failure into `Analysis failed: …`. -/
def getProjects (env : Env) : Except String TurboProjects :=
  let inner : Except String TurboProjects :=
    match getTurboPackages env with
    | .error e => .error e
    | .ok packages => processPackages env.fs packages []
  match inner with
  | .ok r => .ok r
  | .error e => .error ("Analysis failed: " ++ e)

/-! ### Characterization of the grouping pipeline -/

/-- The build labels a `build` field value contributes: none when the field
is absent or the falsy empty string, the singleton when it is a non-empty
string, the elements in order when it is an array. -/
def labelsOf : Option BuildField → List String
  | none => []
  | some (.str s) => if s = "" then [] else [s]
  | some (.arr labels) => labels

/-- The `ProjectInfo` values the loop of `getProjects` actually processes, in
discovery order: one per discovered package whose manifest read succeeds. -/
def goodInfos (fs : String → FileRead Manifest) (pkgs : List WorkspacePackage) :
    List ProjectInfo :=
  pkgs.filterMap (fun pkg =>
    match getPackageInfo fs pkg.path with
    | .ok (some i) => some i
    | _ => none)

/-- All build labels contributed by a list of infos, in processing order. -/
def allLabels (infos : List ProjectInfo) : List String :=
  infos.flatMap (fun p => labelsOf p.build)

/-- The intended content of the group of label `l`: each info, in discovery
order, repeated once per occurrence of `l` among its build labels. -/
def groupSpec (infos : List ProjectInfo) (l : String) : List ProjectInfo :=
  infos.flatMap (fun p => List.replicate ((labelsOf p.build).count l) p)

/-- Lookup of a key in the insertion-ordered result object. -/
def lookupG : TurboProjects → String → Option (List ProjectInfo)
  | [], _ => none
  | (k, g) :: rest, l => if k = l then some g else lookupG rest l

/-- The keys of the result association list in creation (insertion) order.
The observable enumeration order of the object is `enumKeys`, not this. -/
def keysOf (m : TurboProjects) : List String := m.map Prod.fst

/-- The labels of a stream not yet in `seen`, in first-encounter order. -/
def newKeys (seen : List String) : List String → List String
  | [] => []
  | l :: rest => if l ∈ seen then newKeys seen rest else l :: newKeys (seen ++ [l]) rest

/-- First-encounter order of a label stream. -/
def firstEncounter (labels : List String) : List String := newKeys [] labels

/-- `needle` is a prefix of `hay` (character lists). -/
def isPrefB : List Char → List Char → Bool
  | [], _ => true
  | _ :: _, [] => false
  | a :: as, b :: bs => a == b && isPrefB as bs

/-- `needle` occurs as a contiguous substring of `hay`. -/
def isInfB (needle : List Char) : List Char → Bool
  | [] => isPrefB needle []
  | c :: rest => isPrefB needle (c :: rest) || isInfB needle rest

/-! ### Concrete witness workspace -/

/-- Witness project: built via the single `docker` label. -/
def pA : ProjectInfo := ⟨"./a", some "@x/a", none, some "x-a", some (.str "docker")⟩

/-- Witness project: fans out over `npm` and `docker`. -/
def pL : ProjectInfo :=
  ⟨"./lib", some "@My/Lib!!", some "1.0.0", some "my-lib", some (.arr ["npm", "docker"])⟩

/-- Witness project: its `build` array repeats the label `a`. -/
def pD : ProjectInfo := ⟨"./dup", some "dup", none, some "dup", some (.arr ["a", "a"])⟩

/-- The packages the discovery tool reports in the witness run. -/
def pkgsW : List WorkspacePackage :=
  [⟨"@x/a", "./a"⟩, ⟨"@x/b", "./b"⟩, ⟨"@My/Lib!!", "./lib"⟩, ⟨"dup", "./dup"⟩]

/-- The witness filesystem: `./b` has a manifest without a `build` field. -/
def fsW : String → FileRead Manifest := fun p =>
  if p = "./a" then .parsed ⟨some "@x/a", none, some (.str "docker")⟩
  else if p = "./b" then .parsed ⟨some "@x/b", none, none⟩
  else if p = "./lib" then .parsed ⟨some "@My/Lib!!", some "1.0.0", some (.arr ["npm", "docker"])⟩
  else if p = "./dup" then .parsed ⟨some "dup", none, some (.arr ["a", "a"])⟩
  else .absent

/-- A fully successful witness run environment. -/
def envW : Env :=
  { rootManifest := .parsed ⟨some "2.5.8", none⟩
    restoreOutcome := .ok false
    downloadOutcome := .ok ⟨0, "", ""⟩
    saveOutcome := .ok ()
    lsOutcome := .ok ⟨0, "\x7b\x7d", ""⟩
    parseTurbo := fun _ => some ⟨"npm", ⟨4, pkgsW⟩⟩
    fs := fsW }

/-- The grouping the witness run produces. -/
def resW : TurboProjects := [("docker", [pA, pL]), ("npm", [pL]), ("a", [pD, pD])]

/-! ### ECMAScript enumeration order of the result object

`Object.keys`, `Object.entries` and `JSON.stringify` do not enumerate a
plain object's string keys purely in insertion order: array-index keys
(canonical numeric strings whose value is below `2^32 - 1`) come first, in
ascending numeric order, followed by the remaining keys in insertion order
(OrdinaryOwnPropertyKeys). -/

/-- Numeric value of a digit string. -/
def digitsToNat (l : List Char) : Nat :=
  l.foldl (fun acc c => acc * 10 + (c.toNat - 48)) 0

/-- ECMAScript array-index key: a canonical numeric string (digits only, no
leading zero except `"0"` itself) whose value is below `2^32 - 1`. -/
def isArrayIndex (s : String) : Bool :=
  match s.data with
  | [] => false
  | c :: rest =>
    s.data.all (fun d => 48 ≤ d.toNat && d.toNat ≤ 57) &&
      (!(c == '0') || rest.isEmpty) && digitsToNat s.data < 4294967295

/-- Insert a key into a list sorted by ascending numeric value. -/
def insertByVal (k : String) : List String → List String
  | [] => [k]
  | k' :: rest =>
    if digitsToNat k.data ≤ digitsToNat k'.data then k :: k' :: rest
    else k' :: insertByVal k rest

/-- Sort keys by ascending numeric value (insertion sort). -/
def sortByVal : List String → List String
  | [] => []
  | k :: rest => insertByVal k (sortByVal rest)

/-- The order in which `Object.keys`/`JSON.stringify` enumerate the result
object's keys: array-index keys in ascending numeric order first, then the
remaining keys in creation order. -/
def enumKeys (m : TurboProjects) : List String :=
  sortByVal ((keysOf m).filter isArrayIndex) ++
    (keysOf m).filter (fun k => !isArrayIndex k)

/-- Counterexample project for the key-order claim: its labels are
encountered in the order `b`, then `1`. -/
def pN : ProjectInfo := ⟨"./n", some "n", none, some "n", some (.arr ["b", "1"])⟩

/-- The single discovered package of the counterexample run. -/
def pkgsN : List WorkspacePackage := [⟨"n", "./n"⟩]

/-- The counterexample filesystem. -/
def fsN : String → FileRead Manifest := fun p =>
  if p = "./n" then .parsed ⟨some "n", none, some (.arr ["b", "1"])⟩ else .absent

/-- The counterexample run environment. -/
def envN : Env :=
  { rootManifest := .parsed ⟨some "2.5.8", none⟩
    restoreOutcome := .ok false
    downloadOutcome := .ok ⟨0, "", ""⟩
    saveOutcome := .ok ()
    lsOutcome := .ok ⟨0, "\x7b\x7d", ""⟩
    parseTurbo := fun _ => some ⟨"npm", ⟨1, pkgsN⟩⟩
    fs := fsN }

/-- The grouping the counterexample run produces (creation order). -/
def resN : TurboProjects := [("b", [pN]), ("1", [pN])]

/-! ### Lemmas about the result object -/

theorem lookupG_addTo (m : TurboProjects) (k : String) (p : ProjectInfo) (l : String) :
    lookupG (addTo m k p) l =
      if l = k then some (((lookupG m k).getD []) ++ [p]) else lookupG m l := by
  induction m with
  | nil =>
    by_cases h : l = k
    · subst h; simp [addTo, lookupG]
    · simp [addTo, lookupG, h, Ne.symm h]
  | cons hd tl ih =>
    obtain ⟨k', g⟩ := hd
    by_cases hk : k' = k
    · subst hk
      by_cases hl : l = k'
      · subst hl; simp [addTo, lookupG]
      · simp [addTo, lookupG, hl, Ne.symm hl]
    · by_cases hl : k' = l
      · subst hl
        have hlk : ¬k' = k := hk
        simp [addTo, lookupG, hk]
      · simp [addTo, lookupG, hk, hl, ih]

theorem keysOf_addTo (m : TurboProjects) (k : String) (p : ProjectInfo) :
    keysOf (addTo m k p) =
      if k ∈ keysOf m then keysOf m else keysOf m ++ [k] := by
  induction m with
  | nil => simp [addTo, keysOf]
  | cons hd tl ih =>
    obtain ⟨k', g⟩ := hd
    by_cases hk : k' = k
    · subst hk
      have h1 : k' ∈ keysOf ((k', g) :: tl) := by simp [keysOf]
      simp [addTo, keysOf, if_pos h1]
    · have hne : k ≠ k' := fun h => hk h.symm
      by_cases hmem : k ∈ keysOf tl
      · have h1 : k ∈ keysOf ((k', g) :: tl) := by simp [keysOf] at hmem ⊢; exact Or.inr hmem
        rw [if_pos h1]
        rw [if_pos hmem] at ih
        simp only [addTo, if_neg hk, keysOf, List.map_cons] at ih ⊢
        rw [ih]
      · have h1 : k ∉ keysOf ((k', g) :: tl) := by
          simp [keysOf] at hmem ⊢
          exact ⟨hne, hmem⟩
        rw [if_neg h1]
        rw [if_neg hmem] at ih
        simp only [addTo, if_neg hk, keysOf, List.map_cons] at ih ⊢
        rw [ih, List.cons_append]

theorem lookupG_foldl_labels (labels : List String) (m : TurboProjects)
    (p : ProjectInfo) (l : String) :
    lookupG (labels.foldl (fun acc lb => addTo acc lb p) m) l =
      if lookupG m l = none ∧ labels.count l = 0 then none
      else some (((lookupG m l).getD []) ++ List.replicate (labels.count l) p) := by
  induction labels generalizing m with
  | nil =>
    cases h : lookupG m l with
    | none => simp [h]
    | some g => simp [h]
  | cons lb rest ih =>
    simp only [List.foldl_cons]
    rw [ih (addTo m lb p), lookupG_addTo]
    by_cases hl : l = lb
    · subst hl
      simp [List.count_cons_self, List.replicate_succ]
    · have hc : (lb :: rest).count l = rest.count l := by
        simp [List.count_cons, hl]
      simp [hl, hc]

theorem processInfo_eq_foldl (m : TurboProjects) (p : ProjectInfo) :
    processInfo m p = (labelsOf p.build).foldl (fun acc l => addTo acc l p) m := by
  unfold processInfo
  cases hb : p.build with
  | none => simp [labelsOf]
  | some b =>
    cases b with
    | str s =>
      by_cases hs : s = ""
      · subst hs; simp [labelsOf, buildTruthy]
      · simp [labelsOf, buildTruthy, hs]
    | arr labels => simp [labelsOf, buildTruthy]

theorem lookupG_foldl_infos (infos : List ProjectInfo) (m : TurboProjects) (l : String) :
    lookupG (infos.foldl processInfo m) l =
      if lookupG m l = none ∧ groupSpec infos l = [] then none
      else some (((lookupG m l).getD []) ++ groupSpec infos l) := by
  induction infos generalizing m with
  | nil =>
    cases h : lookupG m l with
    | none => simp [groupSpec, h]
    | some g => simp [groupSpec, h]
  | cons i rest ih =>
    simp only [List.foldl_cons]
    rw [ih (processInfo m i), processInfo_eq_foldl, lookupG_foldl_labels]
    have hgs : groupSpec (i :: rest) l =
        List.replicate ((labelsOf i.build).count l) i ++ groupSpec rest l := by
      simp [groupSpec]
    rw [hgs]
    by_cases hn : (labelsOf i.build).count l = 0
    · rw [hn]
      cases hL : lookupG m l with
      | none => simp
      | some g => simp
    · have hrep : List.replicate ((labelsOf i.build).count l) i ≠ [] := by
        simp [hn]
      cases hL : lookupG m l with
      | none => simp [hn, hrep, List.append_assoc]
      | some g => simp [hn, hrep, List.append_assoc]

theorem keysOf_foldl_labels (labels : List String) (m : TurboProjects) (p : ProjectInfo) :
    keysOf (labels.foldl (fun acc l => addTo acc l p) m) =
      keysOf m ++ newKeys (keysOf m) labels := by
  induction labels generalizing m with
  | nil => simp [newKeys]
  | cons lb rest ih =>
    simp only [List.foldl_cons]
    rw [ih (addTo m lb p), keysOf_addTo]
    by_cases hmem : lb ∈ keysOf m
    · rw [if_pos hmem]
      simp [newKeys, hmem]
    · rw [if_neg hmem]
      simp [newKeys, hmem, List.append_assoc]

theorem newKeys_append (ls1 : List String) (seen ls2 : List String) :
    newKeys seen (ls1 ++ ls2) =
      newKeys seen ls1 ++ newKeys (seen ++ newKeys seen ls1) ls2 := by
  induction ls1 generalizing seen with
  | nil => simp [newKeys]
  | cons l rest ih =>
    by_cases h : l ∈ seen
    · simp [newKeys, h, ih]
    · simp only [List.cons_append, newKeys, if_neg h, List.append_eq]
      rw [ih (seen ++ [l])]
      simp [List.append_assoc]

theorem keysOf_foldl_infos (infos : List ProjectInfo) (m : TurboProjects) :
    keysOf (infos.foldl processInfo m) = keysOf m ++ newKeys (keysOf m) (allLabels infos) := by
  induction infos generalizing m with
  | nil => simp [allLabels, newKeys]
  | cons i rest ih =>
    simp only [List.foldl_cons]
    rw [ih (processInfo m i), processInfo_eq_foldl, keysOf_foldl_labels]
    have hall : allLabels (i :: rest) = labelsOf i.build ++ allLabels rest := by
      simp [allLabels]
    rw [hall, newKeys_append]
    simp [List.append_assoc]

theorem newKeys_not_mem_seen :
    ∀ (ls seen : List String) (x : String), x ∈ newKeys seen ls → x ∉ seen := by
  intro ls
  induction ls with
  | nil => intro seen x hx; simp [newKeys] at hx
  | cons l rest ih =>
    intro seen x hx
    by_cases h : l ∈ seen
    · rw [newKeys, if_pos h] at hx
      exact ih seen x hx
    · rw [newKeys, if_neg h] at hx
      rcases List.mem_cons.mp hx with he | hm
      · subst he; exact h
      · intro hxs
        exact ih (seen ++ [l]) x hm (by simp [hxs])

theorem newKeys_nodup : ∀ (ls seen : List String), (newKeys seen ls).Nodup := by
  intro ls
  induction ls with
  | nil => intro seen; simp [newKeys]
  | cons l rest ih =>
    intro seen
    by_cases h : l ∈ seen
    · rw [newKeys, if_pos h]; exact ih seen
    · rw [newKeys, if_neg h]
      refine List.nodup_cons.mpr ⟨?_, ih (seen ++ [l])⟩
      intro hl
      exact newKeys_not_mem_seen rest (seen ++ [l]) l hl (by simp)

theorem newKeys_subset :
    ∀ (ls seen : List String) (x : String), x ∈ newKeys seen ls → x ∈ ls := by
  intro ls
  induction ls with
  | nil => intro seen x hx; simp [newKeys] at hx
  | cons l rest ih =>
    intro seen x hx
    by_cases h : l ∈ seen
    · rw [newKeys, if_pos h] at hx
      exact List.mem_cons_of_mem _ (ih seen x hx)
    · rw [newKeys, if_neg h] at hx
      rcases List.mem_cons.mp hx with he | hm
      · subst he
        exact List.mem_cons_self _ _
      · exact List.mem_cons_of_mem _ (ih (seen ++ [l]) x hm)

theorem lookupG_of_mem :
    ∀ (m : TurboProjects), (keysOf m).Nodup →
      ∀ {l : String} {g : List ProjectInfo}, (l, g) ∈ m → lookupG m l = some g := by
  intro m
  induction m with
  | nil => intro _ l g h; simp at h
  | cons hd tl ih =>
    obtain ⟨k, g'⟩ := hd
    intro hnd l g hmem
    have hnd' := hnd
    rw [keysOf, List.map_cons, List.nodup_cons] at hnd'
    rcases List.mem_cons.mp hmem with he | hm
    · injection he with h1 h2
      subst h1; subst h2
      simp [lookupG]
    · have hkl : k ≠ l := by
        intro he; subst he
        exact hnd'.1 (List.mem_map.mpr ⟨(k, g), hm, rfl⟩)
      rw [lookupG, if_neg hkl]
      exact ih hnd'.2 hm

theorem mem_of_lookupG :
    ∀ {m : TurboProjects} {l : String} {g : List ProjectInfo},
      lookupG m l = some g → (l, g) ∈ m := by
  intro m
  induction m with
  | nil => intro l g h; simp [lookupG] at h
  | cons hd tl ih =>
    obtain ⟨k, g'⟩ := hd
    intro l g h
    by_cases hk : k = l
    · subst hk
      rw [lookupG, if_pos rfl] at h
      injection h with h'
      subst h'
      exact List.mem_cons_self _ _
    · rw [lookupG, if_neg hk] at h
      exact List.mem_cons_of_mem _ (ih h)

theorem processPackages_ok (fs : String → FileRead Manifest) :
    ∀ (pkgs : List WorkspacePackage) (acc r : TurboProjects),
      processPackages fs pkgs acc = .ok r → r = (goodInfos fs pkgs).foldl processInfo acc := by
  intro pkgs
  induction pkgs with
  | nil =>
    intro acc r h
    simp [processPackages] at h
    simp [goodInfos, h]
  | cons pkg rest ih =>
    intro acc r h
    rw [processPackages] at h
    cases hg : getPackageInfo fs pkg.path with
    | error e => rw [hg] at h; exact absurd h (by simp)
    | ok oi =>
      rw [hg] at h
      cases oi with
      | none =>
        simp only at h
        have := ih acc r h
        simp [goodInfos, List.filterMap_cons, hg]
        simpa [goodInfos] using this
      | some i =>
        simp only at h
        have := ih (processInfo acc i) r h
        simp [goodInfos, List.filterMap_cons, hg]
        simpa [goodInfos] using this

theorem getProjects_ok {env : Env} {r : TurboProjects} (h : getProjects env = .ok r) :
    ∃ pkgs, getTurboPackages env = .ok pkgs ∧ processPackages env.fs pkgs [] = .ok r := by
  unfold getProjects at h
  cases hg : getTurboPackages env with
  | error e => rw [hg] at h; simp at h
  | ok pkgs =>
    rw [hg] at h
    have h' : (match processPackages env.fs pkgs [] with
        | Except.ok r => (Except.ok r : Except String TurboProjects)
        | Except.error e => Except.error ("Analysis failed: " ++ e)) = Except.ok r := h
    cases hp : processPackages env.fs pkgs [] with
    | error e => rw [hp] at h'; simp at h'
    | ok r' =>
      rw [hp] at h'
      simp at h'
      exact ⟨pkgs, rfl, by rw [hp, h']⟩

theorem result_lookup {env : Env} {pkgs : List WorkspacePackage} {result : TurboProjects}
    (hp : getTurboPackages env = .ok pkgs) (hr : getProjects env = .ok result) (l : String) :
    lookupG result l =
      if groupSpec (goodInfos env.fs pkgs) l = [] then none
      else some (groupSpec (goodInfos env.fs pkgs) l) := by
  obtain ⟨pkgs', hp', hpr⟩ := getProjects_ok hr
  rw [hp] at hp'
  injection hp' with he
  subst he
  have hres := processPackages_ok env.fs pkgs [] result hpr
  subst hres
  rw [lookupG_foldl_infos]
  simp [lookupG]

theorem result_keys {env : Env} {pkgs : List WorkspacePackage} {result : TurboProjects}
    (hp : getTurboPackages env = .ok pkgs) (hr : getProjects env = .ok result) :
    keysOf result = firstEncounter (allLabels (goodInfos env.fs pkgs)) := by
  obtain ⟨pkgs', hp', hpr⟩ := getProjects_ok hr
  rw [hp] at hp'
  injection hp' with he
  subst he
  have hres := processPackages_ok env.fs pkgs [] result hpr
  subst hres
  rw [keysOf_foldl_infos]
  simp [keysOf, firstEncounter]

theorem result_keys_nodup {env : Env} {result : TurboProjects}
    (hr : getProjects env = .ok result) : (keysOf result).Nodup := by
  obtain ⟨pkgs, hp, hpr⟩ := getProjects_ok hr
  rw [result_keys hp hr]
  exact newKeys_nodup _ _

theorem mem_groupSpec {infos : List ProjectInfo} {l : String} {p : ProjectInfo} :
    p ∈ groupSpec infos l ↔ p ∈ infos ∧ 0 < (labelsOf p.build).count l := by
  simp only [groupSpec, List.mem_flatMap, List.mem_replicate]
  constructor
  · rintro ⟨i, hi, hn, he⟩
    subst he
    exact ⟨hi, Nat.pos_of_ne_zero hn⟩
  · rintro ⟨hp, hc⟩
    exact ⟨p, hp, Nat.pos_iff_ne_zero.mp hc, rfl⟩

theorem count_groupSpec (infos : List ProjectInfo) (l : String) (p : ProjectInfo) :
    (groupSpec infos l).count p =
      (infos.map (fun i => if i = p then (labelsOf i.build).count l else 0)).sum := by
  induction infos with
  | nil => simp [groupSpec]
  | cons i rest ih =>
    have hgs : groupSpec (i :: rest) l =
        List.replicate ((labelsOf i.build).count l) i ++ groupSpec rest l := by
      simp [groupSpec]
    rw [hgs, List.count_append, List.count_replicate, ih]
    by_cases h : i = p
    · subst h; simp
    · have : (i == p) = false := by simp [h]
      simp [this, h]

theorem sum_zero_of_not_mem {infos : List ProjectInfo} {p : ProjectInfo}
    (f : ProjectInfo → Nat) (h : p ∉ infos) :
    (infos.map (fun i => if i = p then f i else 0)).sum = 0 := by
  induction infos with
  | nil => simp
  | cons i rest ih =>
    have hi : i ≠ p := fun he => h (he ▸ List.mem_cons_self i rest)
    have hr : p ∉ rest := fun hm => h (List.mem_cons_of_mem _ hm)
    simp [hi, ih hr]

theorem sum_single {infos : List ProjectInfo} {p : ProjectInfo}
    (f : ProjectInfo → Nat) (h : infos.count p = 1) :
    (infos.map (fun i => if i = p then f i else 0)).sum = f p := by
  induction infos with
  | nil => simp at h
  | cons i rest ih =>
    by_cases he : i = p
    · subst he
      rw [List.count_cons_self] at h
      have hz : rest.count i = 0 := by omega
      have hnm : i ∉ rest := by
        rw [← List.count_pos_iff]
        omega
      simp [sum_zero_of_not_mem f hnm]
    · have : (i == p) = false := by simpa using he
      rw [List.count_cons, this] at h
      simp at h
      rw [List.map_cons, List.sum_cons, if_neg he, ih h]
      omega

theorem count_groupSpec_ge {infos : List ProjectInfo} {l : String} {p : ProjectInfo}
    (h : p ∈ infos) :
    (labelsOf p.build).count l ≤ (groupSpec infos l).count p := by
  induction infos with
  | nil => cases h
  | cons i rest ih =>
    have hgs : groupSpec (i :: rest) l =
        List.replicate ((labelsOf i.build).count l) i ++ groupSpec rest l := by
      simp [groupSpec]
    rw [hgs, List.count_append]
    rcases List.mem_cons.mp h with he | hm
    · subst he
      rw [List.count_replicate]
      simp
    · have := ih hm
      omega

theorem goodInfos_step (fs : String → FileRead Manifest) (path : String) (p : ProjectInfo) :
    (match getPackageInfo fs path with
      | .ok (some i) => some i
      | _ => none) = some p ↔ getPackageInfo fs path = .ok (some p) := by
  cases h : getPackageInfo fs path with
  | error e => simp
  | ok oi => cases oi <;> simp

theorem mem_goodInfos {fs : String → FileRead Manifest} {pkgs : List WorkspacePackage}
    {p : ProjectInfo} :
    p ∈ goodInfos fs pkgs ↔ ∃ pkg, pkg ∈ pkgs ∧ getPackageInfo fs pkg.path = .ok (some p) := by
  simp only [goodInfos, List.mem_filterMap, goodInfos_step]

/-! ### Normal form of normalized identifiers -/

theorem toNat_ofNat_small {m : Nat} (h : m < 55296) : (Char.ofNat m).toNat = m := by
  have hv : m.isValidChar := Or.inl h
  simp [Char.ofNat, hv, Char.ofNatAux, Char.toNat, UInt32.toNat]

theorem jsToLower_toNat (c : Char) :
    (jsToLower c).toNat =
      if 65 ≤ c.toNat && c.toNat ≤ 90 then c.toNat + 32 else c.toNat := by
  unfold jsToLower
  by_cases hb : (65 ≤ c.toNat && c.toNat ≤ 90) = true
  · rw [if_pos hb, if_pos hb]
    have h90 : c.toNat ≤ 90 := by
      simp only [Bool.and_eq_true, decide_eq_true_eq] at hb
      exact hb.2
    exact toNat_ofNat_small (by omega)
  · rw [if_neg hb, if_neg hb]

theorem isWordChar_dash : isWordChar '-' = false := by decide

theorem ne_dash_of_word {c : Char} (h : isWordChar c = true) : c ≠ '-' := by
  intro he
  subst he
  exact absurd h (by decide)

theorem word_cases {c : Char} (h : isWordChar c = true) :
    (65 ≤ c.toNat ∧ c.toNat ≤ 90) ∨ (97 ≤ c.toNat ∧ c.toNat ≤ 122) ∨
      (48 ≤ c.toNat ∧ c.toNat ≤ 57) ∨ c = '_' := by
  simp only [isWordChar, Bool.or_eq_true, Bool.and_eq_true, decide_eq_true_eq,
    beq_iff_eq] at h
  tauto

theorem goodChar_of_range {d : Char}
    (h : (97 ≤ d.toNat ∧ d.toNat ≤ 122) ∨ (48 ≤ d.toNat ∧ d.toNat ≤ 57)) :
    goodChar d = true := by
  simp only [goodChar, isWordChar, Bool.or_eq_true, Bool.and_eq_true, Bool.not_eq_true',
    Bool.and_eq_false_iff, decide_eq_true_eq, decide_eq_false_iff_not, beq_iff_eq]
  left
  rcases h with h | h
  · exact ⟨Or.inl (Or.inl (Or.inr ⟨h.1, h.2⟩)), Or.inr (by omega)⟩
  · exact ⟨Or.inl (Or.inr ⟨h.1, h.2⟩), Or.inl (by omega)⟩

theorem jsToLower_fix_of_not_upper {c : Char} (h : ¬(65 ≤ c.toNat ∧ c.toNat ≤ 90)) :
    jsToLower c = c := by
  unfold jsToLower
  rw [if_neg]
  simp only [Bool.and_eq_true, decide_eq_true_eq]
  exact h

theorem goodChar_jsToLower {c : Char}
    (h : (isWordChar c || c == '-') = true) : goodChar (jsToLower c) = true := by
  rw [Bool.or_eq_true] at h
  rcases h with hw | hd
  · rcases word_cases hw with h1 | h2 | h3 | h4
    · have hm : (jsToLower c).toNat = c.toNat + 32 := by
        rw [jsToLower_toNat, if_pos]
        simp only [Bool.and_eq_true, decide_eq_true_eq]
        exact h1
      exact goodChar_of_range (Or.inl (by omega))
    · rw [jsToLower_fix_of_not_upper (by omega)]
      exact goodChar_of_range (Or.inl h2)
    · rw [jsToLower_fix_of_not_upper (by omega)]
      exact goodChar_of_range (Or.inr h3)
    · subst h4; decide
  · have hd' : c = '-' := by simpa using hd
    subst hd'; decide

theorem jsToLower_fix {c : Char} (h : goodChar c = true) : jsToLower c = c := by
  simp only [goodChar, Bool.or_eq_true, Bool.and_eq_true, Bool.not_eq_true',
    Bool.and_eq_false_iff, decide_eq_false_iff_not, beq_iff_eq] at h
  rcases h with ⟨_, hub⟩ | hd
  · exact jsToLower_fix_of_not_upper (by rcases hub with h | h <;> omega)
  · subst hd; decide

theorem word_or_dash_of_goodChar {c : Char} (h : goodChar c = true) :
    (isWordChar c || c == '-') = true := by
  simp only [goodChar, Bool.or_eq_true, Bool.and_eq_true] at h
  rw [Bool.or_eq_true]
  rcases h with ⟨hw, _⟩ | hd
  · exact Or.inl hw
  · exact Or.inr hd

theorem eq_dash_of_jsToLower_eq_dash {c : Char} (h : jsToLower c = '-') : c = '-' := by
  by_cases hb : (65 ≤ c.toNat && c.toNat ≤ 90) = true
  · exfalso
    have hm : (jsToLower c).toNat = c.toNat + 32 := by rw [jsToLower_toNat, if_pos hb]
    rw [h] at hm
    have h45 : ('-').toNat = 45 := by decide
    simp only [Bool.and_eq_true, decide_eq_true_eq] at hb
    omega
  · unfold jsToLower at h
    rw [if_neg hb] at h
    exact h

theorem mem_collapseGo :
    ∀ (l : List Char) (b : Bool) (c : Char),
      c ∈ collapseGo b l → (isWordChar c || c == '-') = true := by
  intro l
  induction l with
  | nil => intro b c hc; simp [collapseGo] at hc
  | cons d rest ih =>
    intro b c hc
    by_cases hw : isWordChar d = true
    · rw [collapseGo, if_pos hw] at hc
      rcases List.mem_cons.mp hc with he | hm
      · subst he; simp [hw]
      · exact ih false c hm
    · rw [collapseGo, if_neg hw] at hc
      cases b with
      | true =>
        simp only [if_pos] at hc
        exact ih true c hc
      | false =>
        simp only [Bool.false_eq_true, if_false] at hc
        rcases List.mem_cons.mp hc with he | hm
        · subst he; simp
        · exact ih true c hm

theorem head_collapseGo_true :
    ∀ (l : List Char) (c : Char),
      (collapseGo true l).head? = some c → isWordChar c = true := by
  intro l
  induction l with
  | nil => intro c h; simp [collapseGo] at h
  | cons d rest ih =>
    intro c h
    by_cases hw : isWordChar d = true
    · rw [collapseGo, if_pos hw, List.head?_cons] at h
      injection h with h'
      subst h'
      exact hw
    · rw [collapseGo, if_neg hw, if_pos rfl] at h
      exact ih c h

theorem chain_collapseGo :
    ∀ (l : List Char) (b : Bool),
      List.Chain' (fun a b => a ≠ '-' ∨ b ≠ '-') (collapseGo b l) := by
  intro l
  induction l with
  | nil => intro b; simp [collapseGo]
  | cons d rest ih =>
    intro b
    by_cases hw : isWordChar d = true
    · rw [collapseGo, if_pos hw, List.chain'_cons']
      exact ⟨fun y _ => Or.inl (ne_dash_of_word hw), ih false⟩
    · rw [collapseGo, if_neg hw]
      cases b with
      | true =>
        rw [if_pos rfl]
        exact ih true
      | false =>
        simp only [Bool.false_eq_true, if_false]
        rw [List.chain'_cons']
        refine ⟨?_, ih true⟩
        intro y hy
        exact Or.inr (ne_dash_of_word (head_collapseGo_true rest y hy))

theorem stripDashes_eq_rdropWhile (l : List Char) :
    stripDashes l =
      List.rdropWhile (fun c => c == '-') (l.dropWhile (fun c => c == '-')) := rfl

theorem mem_stripDashes {l : List Char} {c : Char} (h : c ∈ stripDashes l) : c ∈ l := by
  rw [stripDashes_eq_rdropWhile] at h
  have hpre := List.rdropWhile_prefix (fun c => c == '-') (l.dropWhile (fun c => c == '-'))
  have h1 := List.Sublist.mem h (List.IsPrefix.sublist hpre)
  exact List.Sublist.mem h1 (List.IsSuffix.sublist (List.dropWhile_suffix _))

theorem stripDashes_within (l : List Char) : stripDashes l <:+: l := by
  rw [stripDashes_eq_rdropWhile]
  have hpre := List.rdropWhile_prefix (fun c => c == '-') (l.dropWhile (fun c => c == '-'))
  have hsuf := List.dropWhile_suffix (l := l) (fun c => c == '-')
  exact List.IsInfix.trans (List.IsPrefix.isInfix hpre) (List.IsSuffix.isInfix hsuf)

theorem dropWhile_head_not (p : Char → Bool) :
    ∀ (l : List Char) (x : Char), (l.dropWhile p).head? = some x → p x = false := by
  intro l
  induction l with
  | nil => intro x h; simp at h
  | cons d rest ih =>
    intro x h
    rw [List.dropWhile_cons] at h
    by_cases hd : p d = true
    · rw [if_pos hd] at h
      exact ih x h
    · rw [if_neg hd] at h
      rw [List.head?_cons] at h
      injection h with h'
      subst h'
      simpa using hd

theorem head_stripDashes (l : List Char) : (stripDashes l).head? ≠ some '-' := by
  intro hh
  rw [stripDashes_eq_rdropWhile] at hh
  obtain ⟨t, ht⟩ :=
    List.rdropWhile_prefix (fun c => c == '-') (l.dropWhile (fun c => c == '-'))
  cases hs : List.rdropWhile (fun c => c == '-') (l.dropWhile (fun c => c == '-')) with
  | nil => rw [hs] at hh; simp at hh
  | cons c rs =>
    rw [hs] at hh ht
    rw [List.head?_cons] at hh
    injection hh with hc
    subst hc
    have hu : (l.dropWhile (fun c => c == '-')).head? = some '-' := by
      rw [← ht]
      simp
    have := dropWhile_head_not (fun c => c == '-') l '-' hu
    simp at this

theorem getLast_stripDashes (l : List Char) : (stripDashes l).getLast? ≠ some '-' := by
  intro hh
  rw [stripDashes_eq_rdropWhile] at hh
  have hne : List.rdropWhile (fun c => c == '-') (l.dropWhile (fun c => c == '-')) ≠ [] := by
    intro h0
    rw [h0] at hh
    simp at hh
  rw [List.getLast?_eq_getLast _ hne] at hh
  injection hh with hc
  have := List.rdropWhile_last_not (fun c => c == '-') (l.dropWhile (fun c => c == '-')) hne
  rw [hc] at this
  simp at this

theorem goodChar_normalize {s : String} {c : Char} (h : c ∈ (normalize s).data) :
    goodChar c = true := by
  have h1 : c ∈ (collapseGo false s.data).map jsToLower := mem_stripDashes h
  obtain ⟨c0, hc0, he⟩ := List.mem_map.mp h1
  subst he
  exact goodChar_jsToLower (mem_collapseGo s.data false c0 hc0)

theorem chain_normalize (s : String) :
    List.Chain' (fun a b => a ≠ '-' ∨ b ≠ '-') (normalize s).data := by
  have h1 : List.Chain' (fun a b => a ≠ '-' ∨ b ≠ '-') (collapseGo false s.data) :=
    chain_collapseGo s.data false
  have h2 : List.Chain' (fun a b => a ≠ '-' ∨ b ≠ '-')
      ((collapseGo false s.data).map jsToLower) := by
    rw [List.chain'_map]
    refine h1.imp ?_
    intro a b hab
    rcases hab with ha | hb
    · exact Or.inl (fun hc => ha (eq_dash_of_jsToLower_eq_dash hc))
    · exact Or.inr (fun hc => hb (eq_dash_of_jsToLower_eq_dash hc))
  exact h2.infix (stripDashes_within _)

theorem dropWhile_eq_self_of_head (p : Char → Bool) (l : List Char)
    (h : ∀ x, l.head? = some x → p x = false) : l.dropWhile p = l := by
  cases l with
  | nil => rfl
  | cons d rest =>
    rw [List.dropWhile_cons, if_neg]
    simp [h d rfl]

theorem stripDashes_fix (t : List Char) (hh : t.head? ≠ some '-')
    (hl : t.getLast? ≠ some '-') : stripDashes t = t := by
  have h1 : t.dropWhile (fun c => c == '-') = t := by
    apply dropWhile_eq_self_of_head
    intro x hx
    by_cases hxd : x = '-'
    · subst hxd; exact absurd hx hh
    · simp [hxd]
  rw [stripDashes_eq_rdropWhile, h1, List.rdropWhile_eq_self_iff]
  intro hne hp
  simp only [beq_iff_eq] at hp
  apply hl
  rw [List.getLast?_eq_getLast _ hne, hp]

theorem map_jsToLower_fix (t : List Char) (h : ∀ c ∈ t, goodChar c = true) :
    t.map jsToLower = t := by
  have hfix : ∀ c ∈ t, jsToLower c = id c := fun c hc => jsToLower_fix (h c hc)
  rw [List.map_congr_left hfix, List.map_id]

theorem collapseGo_word_cons {d : Char} (rest : List Char) (hw : isWordChar d = true) :
    collapseGo true (d :: rest) = collapseGo false (d :: rest) := by
  rw [collapseGo, collapseGo, if_pos hw, if_pos hw]

theorem collapseGo_fix_aux :
    ∀ (n : Nat) (t : List Char), t.length ≤ n →
      (∀ c ∈ t, (isWordChar c || c == '-') = true) →
      List.Chain' (fun a b => a ≠ '-' ∨ b ≠ '-') t →
      t.head? ≠ some '-' → t.getLast? ≠ some '-' →
      collapseGo false t = t := by
  intro n
  induction n with
  | zero =>
    intro t hlen _ _ _ _
    have ht : t = [] := List.length_eq_zero.mp (Nat.le_zero.mp hlen)
    subst ht; rfl
  | succ n ih =>
    intro t hlen hmem hch hh hl
    cases t with
    | nil => rfl
    | cons c rest =>
      have hcne : c ≠ '-' := by
        intro he
        subst he
        exact hh rfl
      have hcw : isWordChar c = true := by
        have hm := hmem c (List.mem_cons_self c rest)
        rw [Bool.or_eq_true] at hm
        rcases hm with h | h
        · exact h
        · exact absurd (by simpa using h) hcne
      rw [collapseGo, if_pos hcw]
      congr 1
      cases rest with
      | nil => rfl
      | cons d rest2 =>
        by_cases hd : d = '-'
        · subst hd
          cases rest2 with
          | nil =>
            exfalso
            apply hl
            simp
          | cons e rest3 =>
            have h1 := List.chain'_cons.mp hch.tail
            have hene : e ≠ '-' := by
              rcases h1.1 with hx | hx
              · exact absurd rfl hx
              · exact hx
            have hew : isWordChar e = true := by
              have hm := hmem e (by simp)
              rw [Bool.or_eq_true] at hm
              rcases hm with h | h
              · exact h
              · exact absurd (by simpa using h) hene
            have hstep : collapseGo false ('-' :: e :: rest3) =
                '-' :: collapseGo true (e :: rest3) := by
              rw [collapseGo, if_neg (by simp [isWordChar_dash])]
              simp
            rw [hstep, collapseGo_word_cons rest3 hew]
            have hfix := ih (e :: rest3)
              (by simp only [List.length_cons] at hlen ⊢; omega)
              (fun x hx => hmem x
                (List.mem_cons_of_mem _ (List.mem_cons_of_mem _ hx)))
              h1.2
              (by simp [hene])
              (by rw [List.getLast?_cons_cons, List.getLast?_cons_cons] at hl; exact hl)
            rw [hfix]
        · have hdw : isWordChar d = true := by
            have hm := hmem d (by simp)
            rw [Bool.or_eq_true] at hm
            rcases hm with h | h
            · exact h
            · exact absurd (by simpa using h) hd
          exact ih (d :: rest2)
            (by simp only [List.length_cons] at hlen ⊢; omega)
            (fun x hx => hmem x (List.mem_cons_of_mem _ hx))
            hch.tail
            (by simp [hd])
            (by rw [List.getLast?_cons_cons] at hl; exact hl)

/-! ### The claims -/

/-- Claim C3: the identifier normalization (collapse non-word runs to `-`,
lowercase, strip edge dashes) is a total function and is idempotent:
`normalize (normalize s) = normalize s` for every string `s`. -/
theorem claim3_normalize_idempotent (s : String) :
    normalize (normalize s) = normalize s := by
  have hmem : ∀ c ∈ (normalize s).data, goodChar c = true :=
    fun c hc => goodChar_normalize hc
  have hch := chain_normalize s
  have hh : (normalize s).data.head? ≠ some '-' :=
    head_stripDashes ((collapseGo false s.data).map jsToLower)
  have hl : (normalize s).data.getLast? ≠ some '-' :=
    getLast_stripDashes ((collapseGo false s.data).map jsToLower)
  have hcol : collapseGo false (normalize s).data = (normalize s).data :=
    collapseGo_fix_aux (normalize s).data.length _ le_rfl
      (fun c hc => word_or_dash_of_goodChar (hmem c hc)) hch hh hl
  have hmap : ((normalize s).data).map jsToLower = (normalize s).data :=
    map_jsToLower_fix _ hmem
  have hstr : stripDashes (normalize s).data = (normalize s).data :=
    stripDashes_fix _ hh hl
  show (⟨stripDashes ((collapseGo false (normalize s).data).map jsToLower)⟩ : String) =
    normalize s
  rw [hcol, hmap, hstr]

/-- Claim C4: the identifier `getPackageInfo` derives from a package name is
exactly `normalize` (replace each maximal non-word run by `-`, lowercase,
strip leading/trailing dashes); in particular `normalize "@My/Lib!!" =
"my-lib"`, and empty or all-symbol names normalize to the empty string. -/
theorem claim4_identifier_normalization :
    (∀ (fs : String → FileRead Manifest) (path : String) (m : Manifest) (n : String),
        fs path = .parsed m → m.name = some n →
        getPackageInfo fs path =
          .ok (some { path := path, name := some n, version := m.version,
                      identifier := some (normalize n), build := m.build })) ∧
      normalize "@My/Lib!!" = "my-lib" ∧ normalize "" = "" ∧ normalize "@$%!" = "" := by
  refine ⟨?_, rfl, rfl, rfl⟩
  intro fs path m n hfs hn
  unfold getPackageInfo
  rw [hfs]
  simp [packageInfoOf, hn]

/-- Witness for C4 at a concrete filesystem and manifest. -/
theorem claim4_witness :
    getPackageInfo (fun _ => .parsed ⟨some "@My/Lib!!", none, none⟩) "./lib" =
      .ok (some { path := "./lib", name := some "@My/Lib!!", version := none,
                  identifier := some (normalize "@My/Lib!!"), build := none }) :=
  claim4_identifier_normalization.1 (fun _ => .parsed ⟨some "@My/Lib!!", none, none⟩)
    "./lib" ⟨some "@My/Lib!!", none, none⟩ "@My/Lib!!" rfl rfl

/-- Claim C5: `ensureTurboCache` never raises to its caller: for every
combination of collaborator outcomes (cache restore throwing or missing,
the pre-download subprocess throwing or exiting non-zero, cache save
throwing) it returns successfully, degrading failures to warnings. -/
theorem claim5_ensureTurboCache_total (env : Env) (turboVersion : String) :
    ∃ logs, ensureTurboCache env turboVersion = .ok logs := by
  rcases hr : env.restoreOutcome with e | b
  · rcases hd : env.downloadOutcome with e2 | out
    · exact ⟨_, by simp [ensureTurboCache, hr, hd]; rfl⟩
    · by_cases hc : out.exitCode = 0
      · rcases hsv : env.saveOutcome with e3 | u
        · exact ⟨_, by simp [ensureTurboCache, hr, hd, hsv, hc]; rfl⟩
        · exact ⟨_, by simp [ensureTurboCache, hr, hd, hsv, hc]; rfl⟩
      · exact ⟨_, by simp [ensureTurboCache, hr, hd, hc]; rfl⟩
  · cases b with
    | true => exact ⟨_, by simp [ensureTurboCache, hr]; rfl⟩
    | false =>
      rcases hd : env.downloadOutcome with e2 | out
      · exact ⟨_, by simp [ensureTurboCache, hr, hd]; rfl⟩
      · by_cases hc : out.exitCode = 0
        · rcases hsv : env.saveOutcome with e3 | u
          · exact ⟨_, by simp [ensureTurboCache, hr, hd, hsv, hc]; rfl⟩
          · exact ⟨_, by simp [ensureTurboCache, hr, hd, hsv, hc]; rfl⟩
        · exact ⟨_, by simp [ensureTurboCache, hr, hd, hc]; rfl⟩

/-- Counterexample to C7 as stated: in the root manifest
`{devDependencies: {turbo: ""}, dependencies: {turbo: "1.2.3"}}` both a
development-dependencies entry and a runtime-dependencies entry exist, yet
the runtime entry `"1.2.3"` is returned, not the development entry `""`:
JavaScript `||` treats the empty string as falsy. -/
theorem claim7_counterexample :
    getTurboVersion (.parsed ⟨some "", some "1.2.3"⟩) = .ok (some "1.2.3") ∧
      getTurboVersion (.parsed ⟨some "", some "1.2.3"⟩) ≠ .ok (some "") := by
  refine ⟨rfl, ?_⟩
  intro h
  rw [show getTurboVersion (.parsed ⟨some "", some "1.2.3"⟩) =
    .ok (some "1.2.3") from rfl] at h
  injection h with h1
  injection h1 with h2
  exact absurd h2 (by decide)

/-- Claim C7 (amended): `getTurboVersion` returns no version when the root
manifest is missing, fails exactly when the root manifest is present but
unreadable, returns no version when neither dependency section has a turbo
entry, and returns the development-dependencies entry when it is a
non-empty string — an empty development-dependencies version string is
falsy under `||` and falls through to the runtime-dependencies entry. -/
theorem claim7_version_resolution :
    (getTurboVersion .absent = .ok none) ∧
    (∀ root : FileRead RootManifest,
      (∃ e, getTurboVersion root = .error e) ↔ root = .malformed) ∧
    (∀ pj : RootManifest, pj.devDependenciesTurbo = none → pj.dependenciesTurbo = none →
      getTurboVersion (.parsed pj) = .ok none) ∧
    (∀ (pj : RootManifest) (v : String), pj.devDependenciesTurbo = some v → v ≠ "" →
      getTurboVersion (.parsed pj) = .ok (some v)) ∧
    (∀ pj : RootManifest, pj.devDependenciesTurbo = some "" →
      getTurboVersion (.parsed pj) = .ok pj.dependenciesTurbo) := by
  refine ⟨rfl, ?_, ?_, ?_, ?_⟩
  · intro root
    constructor
    · rintro ⟨e, he⟩
      cases root with
      | absent => simp [getTurboVersion] at he
      | malformed => rfl
      | parsed pj => simp [getTurboVersion] at he
    · rintro rfl
      exact ⟨_, rfl⟩
  · intro pj h1 h2
    simp [getTurboVersion, jsOr, h1, h2]
  · intro pj v h1 h2
    simp [getTurboVersion, jsOr, h1, h2]
  · intro pj h1
    simp [getTurboVersion, jsOr, h1]

/-- Witness for C7 (amended): a non-empty development-dependencies entry
wins over the runtime-dependencies entry. -/
theorem claim7_witness :
    getTurboVersion (.parsed ⟨some "2.0.0", some "1.0.0"⟩) = .ok (some "2.0.0") :=
  claim7_version_resolution.2.2.2.1 ⟨some "2.0.0", some "1.0.0"⟩ "2.0.0" rfl (by decide)

/-- Claim C1 (code bug evidence): when the `ls` subprocess exits with code 1
and stderr `"boom"`, `getTurboPackages` does fail, but with the generic
catch-all message `Failed to retrieve turbo packages`, which does not
contain `"boom"`: the specific inner error
`Failed to get turbo packages: ${stderr}` is thrown inside the `try` block
and swallowed by its own `catch`. -/
theorem claim1_stderr_swallowed :
    getTurboPackages
        { rootManifest := .parsed ⟨some "2.5.8", none⟩
          restoreOutcome := .ok false
          downloadOutcome := .ok { exitCode := 0, stdout := "", stderr := "" }
          saveOutcome := .ok ()
          lsOutcome := .ok { exitCode := 1, stdout := "", stderr := "boom" }
          parseTurbo := fun _ => none
          fs := fun _ => .absent } = .error "Failed to retrieve turbo packages" ∧
      isInfB "boom".data "Failed to retrieve turbo packages".data = false :=
  ⟨rfl, rfl⟩

/-- Claim C2: in every successful run, every `ProjectInfo` in any group of
the result came from a discovered package whose manifest parsed and carried
a non-empty (truthy) `build` field; conversely a discovered package whose
manifest has no `build` field contributes to no group. -/
theorem claim2_filtering (env : Env) (pkgs : List WorkspacePackage) (result : TurboProjects)
    (hp : getTurboPackages env = .ok pkgs) (hr : getProjects env = .ok result) :
    (∀ l g, (l, g) ∈ result → ∀ p ∈ g,
        ∃ pkg ∈ pkgs, ∃ m, env.fs pkg.path = .parsed m ∧
          p = packageInfoOf pkg.path m ∧
          ∃ b, m.build = some b ∧ labelsOf (some b) ≠ []) ∧
    (∀ pkg ∈ pkgs, ∀ m, env.fs pkg.path = .parsed m → m.build = none →
        ∀ l g, (l, g) ∈ result → packageInfoOf pkg.path m ∉ g) := by
  have hnd := result_keys_nodup hr
  constructor
  · intro l g hlg p hpg
    have hlk := lookupG_of_mem result hnd hlg
    rw [result_lookup hp hr l] at hlk
    by_cases hsp : groupSpec (goodInfos env.fs pkgs) l = []
    · rw [if_pos hsp] at hlk
      exact absurd hlk (by simp)
    · rw [if_neg hsp] at hlk
      injection hlk with hg
      subst hg
      obtain ⟨hpi, hcnt⟩ := mem_groupSpec.mp hpg
      obtain ⟨pkg, hpkg, hgi⟩ := mem_goodInfos.mp hpi
      cases hfs : env.fs pkg.path with
      | absent =>
        unfold getPackageInfo at hgi
        rw [hfs] at hgi
        exact absurd hgi (by simp)
      | malformed =>
        unfold getPackageInfo at hgi
        rw [hfs] at hgi
        exact absurd hgi (by simp)
      | parsed m =>
        unfold getPackageInfo at hgi
        rw [hfs] at hgi
        injection hgi with hgi'
        injection hgi' with hgi''
        refine ⟨pkg, hpkg, m, hfs, hgi''.symm, ?_⟩
        cases hb : m.build with
        | none =>
          exfalso
          rw [← hgi''] at hcnt
          simp [packageInfoOf, hb, labelsOf] at hcnt
        | some b =>
          refine ⟨b, rfl, ?_⟩
          intro hemp
          rw [← hgi''] at hcnt
          rw [show (packageInfoOf pkg.path m).build = m.build from rfl, hb, hemp] at hcnt
          simp at hcnt
  · intro pkg _ m _ hbn l g hlg hpin
    have hlk := lookupG_of_mem result hnd hlg
    rw [result_lookup hp hr l] at hlk
    by_cases hsp : groupSpec (goodInfos env.fs pkgs) l = []
    · rw [if_pos hsp] at hlk
      exact absurd hlk (by simp)
    · rw [if_neg hsp] at hlk
      injection hlk with hg
      subst hg
      obtain ⟨_, hcnt⟩ := mem_groupSpec.mp hpin
      rw [show (packageInfoOf pkg.path m).build = m.build from rfl, hbn] at hcnt
      simp [labelsOf] at hcnt

/-- Witness for C2 at the concrete workspace: the package `./b`, whose
manifest has no `build` field, appears in no group of the result. -/
theorem claim2_witness :
    packageInfoOf "./b" ⟨some "@x/b", none, none⟩ ∉ [pA, pL] :=
  (claim2_filtering envW pkgsW resW rfl rfl).2 ⟨"@x/b", "./b"⟩ (by decide)
    ⟨some "@x/b", none, none⟩ rfl rfl "docker" [pA, pL] (by decide)

/-- Claim C6: a discovered package whose manifest has `build: [a, b]` (two
distinct labels) and whose `ProjectInfo` occurs exactly once in the
processed stream appears exactly once in group `a` and exactly once in
group `b`, the same value (hence identical fields) in both. -/
theorem claim6_fanout (env : Env) (pkgs : List WorkspacePackage) (result : TurboProjects)
    (pkg : WorkspacePackage) (m : Manifest) (la lb : String)
    (hp : getTurboPackages env = .ok pkgs) (hr : getProjects env = .ok result)
    (hmem : pkg ∈ pkgs) (hfs : env.fs pkg.path = .parsed m)
    (hb : m.build = some (.arr [la, lb])) (hne : la ≠ lb)
    (huniq : (goodInfos env.fs pkgs).count (packageInfoOf pkg.path m) = 1) :
    ∃ ga gb, (la, ga) ∈ result ∧ (lb, gb) ∈ result ∧
      packageInfoOf pkg.path m ∈ ga ∧ packageInfoOf pkg.path m ∈ gb ∧
      ga.count (packageInfoOf pkg.path m) = 1 ∧
      gb.count (packageInfoOf pkg.path m) = 1 := by
  have hgood : packageInfoOf pkg.path m ∈ goodInfos env.fs pkgs := by
    rw [mem_goodInfos]
    refine ⟨pkg, hmem, ?_⟩
    unfold getPackageInfo
    rw [hfs]
  have hlabels : labelsOf (packageInfoOf pkg.path m).build = [la, lb] := by
    rw [show (packageInfoOf pkg.path m).build = m.build from rfl, hb]
    rfl
  have hca : (labelsOf (packageInfoOf pkg.path m).build).count la = 1 := by
    rw [hlabels]
    simp [List.count_cons, hne, Ne.symm hne]
  have hcb : (labelsOf (packageInfoOf pkg.path m).build).count lb = 1 := by
    rw [hlabels]
    simp [List.count_cons, hne, Ne.symm hne]
  have hga : lookupG result la = some (groupSpec (goodInfos env.fs pkgs) la) := by
    rw [result_lookup hp hr la, if_neg]
    exact List.ne_nil_of_mem (mem_groupSpec.mpr ⟨hgood, by omega⟩)
  have hgb : lookupG result lb = some (groupSpec (goodInfos env.fs pkgs) lb) := by
    rw [result_lookup hp hr lb, if_neg]
    exact List.ne_nil_of_mem (mem_groupSpec.mpr ⟨hgood, by omega⟩)
  refine ⟨groupSpec (goodInfos env.fs pkgs) la, groupSpec (goodInfos env.fs pkgs) lb,
    mem_of_lookupG hga, mem_of_lookupG hgb,
    mem_groupSpec.mpr ⟨hgood, by omega⟩, mem_groupSpec.mpr ⟨hgood, by omega⟩, ?_, ?_⟩
  · rw [count_groupSpec, sum_single _ huniq, hca]
  · rw [count_groupSpec, sum_single _ huniq, hcb]

/-- Witness for C6: in the concrete workspace, `./lib` (build
`["npm","docker"]`) appears once in group `npm` and once in group `docker`. -/
theorem claim6_witness :
    ∃ ga gb, ("npm", ga) ∈ resW ∧ ("docker", gb) ∈ resW ∧
      packageInfoOf "./lib" ⟨some "@My/Lib!!", some "1.0.0", some (.arr ["npm", "docker"])⟩ ∈ ga ∧
      packageInfoOf "./lib" ⟨some "@My/Lib!!", some "1.0.0", some (.arr ["npm", "docker"])⟩ ∈ gb ∧
      ga.count (packageInfoOf "./lib"
        ⟨some "@My/Lib!!", some "1.0.0", some (.arr ["npm", "docker"])⟩) = 1 ∧
      gb.count (packageInfoOf "./lib"
        ⟨some "@My/Lib!!", some "1.0.0", some (.arr ["npm", "docker"])⟩) = 1 :=
  claim6_fanout envW pkgsW resW ⟨"@My/Lib!!", "./lib"⟩
    ⟨some "@My/Lib!!", some "1.0.0", some (.arr ["npm", "docker"])⟩ "npm" "docker"
    rfl rfl (by decide) rfl rfl (by decide) (by decide)

/-- Counterexample to C8 as stated: in a run whose build labels are
encountered in the order `b`, then `1`, the groups are created in that
order, but ECMAScript enumerates the array-index key `"1"` before `"b"` in
`Object.keys`/`JSON.stringify`, so the labels of the result mapping do not
appear in first-encounter order. -/
theorem claim8_counterexample :
    getTurboPackages envN = .ok pkgsN ∧ getProjects envN = .ok resN ∧
      firstEncounter (allLabels (goodInfos envN.fs pkgsN)) = ["b", "1"] ∧
      enumKeys resN = ["1", "b"] ∧
      enumKeys resN ≠ firstEncounter (allLabels (goodInfos envN.fs pkgsN)) :=
  ⟨rfl, rfl, rfl, rfl, by decide⟩

/-- Claim C8 (amended): each group of the result lists, in tool-reported
discovery order, the processed infos once per matching label occurrence
(`groupSpec` over `goodInfos`, an order-preserving extraction of the
discovered package list); the result's labels enumerate with array-index
labels first in ascending numeric order, followed by the remaining build
labels in first-encounter order over the discovered packages; when no label
is an array-index string this is exactly first-encounter order. -/
theorem claim8_ordering (env : Env) (pkgs : List WorkspacePackage) (result : TurboProjects)
    (hp : getTurboPackages env = .ok pkgs) (hr : getProjects env = .ok result) :
    (∀ l g, (l, g) ∈ result → g = groupSpec (goodInfos env.fs pkgs) l) ∧
    enumKeys result =
      sortByVal ((firstEncounter (allLabels (goodInfos env.fs pkgs))).filter isArrayIndex) ++
        (firstEncounter (allLabels (goodInfos env.fs pkgs))).filter
          (fun k => !isArrayIndex k) ∧
    ((∀ k ∈ allLabels (goodInfos env.fs pkgs), isArrayIndex k = false) →
      enumKeys result = firstEncounter (allLabels (goodInfos env.fs pkgs))) := by
  have hnd := result_keys_nodup hr
  refine ⟨?_, ?_, ?_⟩
  · intro l g hlg
    have hlk := lookupG_of_mem result hnd hlg
    rw [result_lookup hp hr l] at hlk
    by_cases hsp : groupSpec (goodInfos env.fs pkgs) l = []
    · rw [if_pos hsp] at hlk
      exact absurd hlk (by simp)
    · rw [if_neg hsp] at hlk
      injection hlk with hg
      exact hg.symm
  · unfold enumKeys
    rw [result_keys hp hr]
  · intro hni
    unfold enumKeys
    rw [result_keys hp hr]
    have hsub : ∀ k ∈ firstEncounter (allLabels (goodInfos env.fs pkgs)),
        isArrayIndex k = false :=
      fun k hk => hni k (newKeys_subset _ _ _ hk)
    rw [List.filter_eq_nil_iff.mpr (by intro a ha; simp [hsub a ha]),
      List.filter_eq_self.mpr (by intro a ha; simp [hsub a ha])]
    rfl

/-- Witness for C8 (amended) at the concrete workspace, where no build
label is an array-index string. -/
theorem claim8_witness :
    (∀ l g, (l, g) ∈ resW → g = groupSpec (goodInfos envW.fs pkgsW) l) ∧
    enumKeys resW =
      sortByVal ((firstEncounter (allLabels (goodInfos envW.fs pkgsW))).filter isArrayIndex) ++
        (firstEncounter (allLabels (goodInfos envW.fs pkgsW))).filter
          (fun k => !isArrayIndex k) ∧
    ((∀ k ∈ allLabels (goodInfos envW.fs pkgsW), isArrayIndex k = false) →
      enumKeys resW = firstEncounter (allLabels (goodInfos envW.fs pkgsW))) :=
  claim8_ordering envW pkgsW resW rfl rfl

/-- Claim C9: every group in the result of a successful run is non-empty:
a key is only created when an entry is pushed into it. -/
theorem claim9_no_empty_groups (env : Env) (result : TurboProjects)
    (hr : getProjects env = .ok result) :
    ∀ l g, (l, g) ∈ result → g ≠ [] := by
  obtain ⟨pkgs, hp, _⟩ := getProjects_ok hr
  intro l g hlg
  have hnd := result_keys_nodup hr
  have hlk := lookupG_of_mem result hnd hlg
  rw [result_lookup hp hr l] at hlk
  by_cases hsp : groupSpec (goodInfos env.fs pkgs) l = []
  · rw [if_pos hsp] at hlk
    exact absurd hlk (by simp)
  · rw [if_neg hsp] at hlk
    injection hlk with hg
    rw [← hg]
    exact hsp

/-- Witness for C9 at the concrete workspace. -/
theorem claim9_witness : ([pA, pL] : List ProjectInfo) ≠ [] :=
  claim9_no_empty_groups envW resW rfl "docker" [pA, pL] (by decide)

/-- Claim C10: when a package's `build` array repeats a label (at least
twice), the grouper pushes the `ProjectInfo` once per occurrence, so the
label's group contains the same package at least twice; labels are not
deduplicated. -/
theorem claim10_duplicate_labels (env : Env) (pkgs : List WorkspacePackage)
    (result : TurboProjects) (pkg : WorkspacePackage) (m : Manifest) (l : String)
    (hp : getTurboPackages env = .ok pkgs) (hr : getProjects env = .ok result)
    (hmem : pkg ∈ pkgs) (hfs : env.fs pkg.path = .parsed m)
    (hcnt : 2 ≤ (labelsOf m.build).count l) :
    ∃ g, (l, g) ∈ result ∧ 2 ≤ g.count (packageInfoOf pkg.path m) := by
  have hgood : packageInfoOf pkg.path m ∈ goodInfos env.fs pkgs := by
    rw [mem_goodInfos]
    refine ⟨pkg, hmem, ?_⟩
    unfold getPackageInfo
    rw [hfs]
  have hcnt' : 2 ≤ (labelsOf (packageInfoOf pkg.path m).build).count l := hcnt
  have hlk : lookupG result l = some (groupSpec (goodInfos env.fs pkgs) l) := by
    rw [result_lookup hp hr l, if_neg]
    exact List.ne_nil_of_mem (mem_groupSpec.mpr ⟨hgood, by omega⟩)
  refine ⟨groupSpec (goodInfos env.fs pkgs) l, mem_of_lookupG hlk, ?_⟩
  have := count_groupSpec_ge (l := l) hgood
  omega

/-- Witness for C10: in the concrete workspace, `./dup` (build `["a","a"]`)
appears twice in group `a`. -/
theorem claim10_witness :
    ∃ g, ("a", g) ∈ resW ∧
      2 ≤ g.count (packageInfoOf "./dup" ⟨some "dup", none, some (.arr ["a", "a"])⟩) :=
  claim10_duplicate_labels envW pkgsW resW ⟨"dup", "./dup"⟩
    ⟨some "dup", none, some (.arr ["a", "a"])⟩ "a" rfl rfl (by decide) rfl (by decide)

end TPV
